import Mathlib

/-!
Verification of the psynapse frontend streaming client and editor callbacks.

This file gives a shallow embedding of:
  * the SSE streaming client `executeGraphStreaming` and the sync client
    `executeGraph` (src/frontend/src/utils/api.ts), including the line
    buffering loop, the per-frame dispatch, the env-var injection
    (`getEnvVars`) and the catch clause of the fetch promise;
  * the editor callbacks of `PsynapseEditor` — the `onStatus` status-history
    update, the `onComplete` view-node update, and the request-body shaping
    (`nodesToExecute` / `edgesToExecute`);
  * the `ExecutionStatus` record declared in the frontend schema;
  * the save / load workflow logic (`handleSaveWorkflow` /
    `handleFileInputChange`), including the `node_<k>` id-counter bump.

JavaScript values parsed from JSON are modelled by the inductive `Json`;
platform primitives that are not repository code (`JSON.parse`,
`sessionStorage`, the fetch body reader) are modelled as explicit
parameters, so every theorem is quantified over their behaviour.
Strings flowing through the SSE byte loop are modelled as `List Char`;
`TextDecoder` with `stream: true` makes the decoded character stream
independent of the byte chunk boundaries, so read chunks are modelled as
lists of characters.
-/

namespace Psynapse

/-- JSON values as produced by `JSON.parse`. -/
inductive Json where
  | null
  | bool (b : Bool)
  | num (n : Int)
  | str (s : String)
  | arr (elems : List Json)
  | obj (fields : List (String × Json))

/-- JavaScript property access `v[key]` on a parsed JSON value: the first
binding of `key` when `v` is an object, `undefined` (here `none`) otherwise. -/
def Json.getField : Json → String → Option Json
  | .obj fields, key => fields.lookup key
  | _, _ => none

/-- JavaScript truthiness of a JSON value: `null`, `false`, `0` and `""` are
falsy; arrays and objects (even empty ones) are truthy. -/
def Json.truthy : Json → Bool
  | .null => false
  | .bool b => b
  | .num n => n != 0
  | .str s => s != ""
  | .arr _ => true
  | .obj _ => true

/-- Truthiness of a possibly-absent value (`undefined` is falsy). -/
def truthyOpt : Option Json → Bool
  | none => false
  | some v => v.truthy

/-- JavaScript `x || d`: `x` when truthy (and present), else `d`. -/
def jsOr (x : Option Json) (d : Json) : Json :=
  match x with
  | some v => if v.truthy then v else d
  | none => d

/-- JavaScript strict equality `v === "<s>"` between a possibly-absent JSON
value and a string literal. -/
def strictEqStr (x : Option Json) (s : String) : Bool :=
  match x with
  | some (.str t) => t == s
  | _ => false

/-- The three callbacks of `executeGraphStreaming`, applied to the value the
client passes them. -/
inductive Callback where
  | onStatus (frame : Json)
  | onComplete (results : Json)
  | onError (message : Json)

/-- The `"data: "` prefix of an SSE data line (src/frontend/src/utils/api.ts,
`line.startsWith("data: ")`). -/
def dataHead : List Char := "data: ".toList

/-- The frame dispatch of `executeGraphStreaming`
(src/frontend/src/utils/api.ts:96-108): a frame whose `status` is `"done"`
invokes `onComplete(statusUpdate.results || {})`; a frame whose `status` is
`"error"` with a falsy `node_id` invokes
`onError(statusUpdate.error || "Unknown error")`; every other frame invokes
`onStatus(statusUpdate)`. -/
def dispatchFrame (statusUpdate : Json) : Callback :=
  if strictEqStr (statusUpdate.getField "status") "done" then
    .onComplete (jsOr (statusUpdate.getField "results") (.obj []))
  else if strictEqStr (statusUpdate.getField "status") "error"
      && !(truthyOpt (statusUpdate.getField "node_id")) then
    .onError (jsOr (statusUpdate.getField "error") (.str "Unknown error"))
  else
    .onStatus statusUpdate

/-- One iteration of the `for (const line of lines)` loop of
`executeGraphStreaming` (src/frontend/src/utils/api.ts:91-112): a line that
starts with `"data: "` has the prefix sliced off and the rest passed to
`JSON.parse` (modelled by the `parseJson` parameter, `none` = throw); a parse
failure is caught and the line skipped; other lines are ignored. -/
def processLine (parseJson : List Char → Option Json) (line : List Char) :
    List Callback :=
  if dataHead.isPrefixOf line then
    match parseJson (line.drop 6) with
    | some statusUpdate => [dispatchFrame statusUpdate]
    | none => []
  else []

/-- The whole `for (const line of lines)` loop over the complete lines of one
read. -/
def processLines (parseJson : List Char → Option Json)
    (lines : List (List Char)) : List Callback :=
  lines.flatMap (processLine parseJson)

/-- Prepend a segment to the first segment of a split result. -/
def consHead (x : List Char) : List (List Char) → List (List Char)
  | [] => [x]
  | seg :: segs => (x ++ seg) :: segs

/-- `buffer.split("\n")` (src/frontend/src/utils/api.ts:88). -/
def splitNl : List Char → List (List Char)
  | [] => [[]]
  | c :: rest =>
    if c = '\n' then [] :: splitNl rest
    else consHead [c] (splitNl rest)

/-- The read loop of `executeGraphStreaming`
(src/frontend/src/utils/api.ts:75-114): each read chunk is appended to the
buffer, the buffer is split on `"\n"`, the (possibly incomplete) final
segment is kept as the new buffer (`buffer = lines.pop() || ""`), and the
complete lines are processed.  Returns the emitted callbacks and the final
buffer contents. -/
def processChunks (parseJson : List Char → Option Json) :
    List (List Char) → List Char → List Callback × List Char
  | [], buffer => ([], buffer)
  | chunk :: rest, buffer =>
    let lines := splitNl (buffer ++ chunk)
    let newBuffer := lines.getLastD []
    let completeLines := lines.dropLast
    let cbs := processLines parseJson completeLines
    let next := processChunks parseJson rest newBuffer
    (cbs ++ next.1, next.2)

/-- The callback sequence produced by a full run of the read loop, starting
from the empty buffer. -/
def streamCallbacks (parseJson : List Char → Option Json)
    (chunks : List (List Char)) : List Callback :=
  (processChunks parseJson chunks []).1

/-- One well-formed SSE record `data: <payload>\n\n`. -/
def sseRecord (payload : List Char) : List Char :=
  dataHead ++ payload ++ ['\n', '\n']

/-- The `.catch` clause of the fetch promise
(src/frontend/src/utils/api.ts:116-120): an error whose `name` is not
`"AbortError"` invokes `onError(error.message || "Network error")`; an
`AbortError` is suppressed. -/
def catchClause (errName : String) (errMessage : Option String) :
    List Callback :=
  if errName ≠ "AbortError" then
    [.onError (jsOr (errMessage.map .str) (.str "Network error"))]
  else []

/-- A run of the streaming client in which the caller invokes the returned
cleanup function after `abortAt` reads: `controller.abort()` aborts the
fetch, so the chunks past that point are never delivered, and the promise
chain rejects with an `AbortError` handled by `catchClause`. -/
def streamRunWithAbort (parseJson : List Char → Option Json)
    (chunks : List (List Char)) (abortAt : Nat) (abortMessage : Option String) :
    List Callback :=
  streamCallbacks parseJson (chunks.take abortAt) ++
    catchClause "AbortError" abortMessage

/-- The value `executeGraphStreaming` returns to its caller. -/
inductive CleanupAction where
  | abortController

/-- `executeGraphStreaming` returns on every control path: the fetch promise
is detached (errors flow to `.catch`) and the function ends by returning the
cleanup closure `() => controller.abort()`
(src/frontend/src/utils/api.ts:122-125). -/
def executeGraphStreamingReturn : CleanupAction :=
  .abortController

/-! ### Environment variables and request bodies (api.ts) -/

/-- `getEnvVars` (src/frontend/src/utils/api.ts:13-24): read sessionStorage
under `"psynapse_env_vars"` (modelled by `stored`, `none` = key absent), skip
falsy values, `JSON.parse` the string (modelled by `parseEnv`; `none` covers
a parse throw or a non-object result, both of which end in the catch-all
`return undefined`), and return the parsed map only when it has keys. -/
def getEnvVars (parseEnv : String → Option (List (String × String)))
    (stored : Option String) : Option (List (String × String)) :=
  match stored with
  | none => none
  | some s =>
    if s ≠ "" then
      match parseEnv s with
      | some parsed => if parsed.length > 0 then some parsed else none
      | none => none
    else none

/-- The `ExecuteRequest` wire record (src/unnamed/part_014): node and edge
payloads are arbitrary JSON, `env_vars` is optional. -/
structure ExecuteRequestR where
  nodes : List Json
  edges : List Json
  env_vars : Option (List (String × String)) := none

/-- The body `{ ...request, env_vars }` posted by the sync path
`executeGraph` (src/frontend/src/utils/api.ts:34-41). -/
def executeGraphBody (parseEnv : String → Option (List (String × String)))
    (stored : Option String) (request : ExecuteRequestR) : ExecuteRequestR :=
  { request with env_vars := getEnvVars parseEnv stored }

/-- The body `{ ...request, env_vars }` posted by the streaming path
`executeGraphStreaming` (src/frontend/src/utils/api.ts:51-53). -/
def executeGraphStreamingBody
    (parseEnv : String → Option (List (String × String)))
    (stored : Option String) (request : ExecuteRequestR) : ExecuteRequestR :=
  { request with env_vars := getEnvVars parseEnv stored }

/-! ### Editor `onStatus` callback: the status history (part_011) -/

/-- An execution-status frame as kept in the editor's `statusHistory`; only
`node_id` and `status` drive the update logic, the remaining fields of the
record are collected in `payload`. -/
structure ExecutionStatusR where
  node_id : String
  status : String
  payload : Json := .null

/-- The findIndex predicate of the `onStatus` callback
(src/unnamed/part_011:319-324): an existing entry is updatable when its
status is `"executing"`, `"progress"` or `"streaming"`. -/
def isUpdatable (s : String) : Bool :=
  s == "executing" || s == "progress" || s == "streaming"

/-- The replacement condition of the `onStatus` callback
(src/unnamed/part_011:326-331): the incoming status is `"progress"`,
`"streaming"`, `"completed"` or `"error"`. -/
def isReplacing (s : String) : Bool :=
  s == "progress" || s == "streaming" || s == "completed" || s == "error"

/-- The `setStatusHistory` updater of the editor's `onStatus` callback
(src/unnamed/part_011:317-343): find the first entry with the same `node_id`
in an updatable state; if found and the incoming status is a replacing one,
overwrite that entry in place; otherwise append (the source's
`else if executing` branch and its final `else` branch both append). -/
def updateHistory (prev : List ExecutionStatusR) (status : ExecutionStatusR) :
    List ExecutionStatusR :=
  match prev.findIdx? fun s =>
      s.node_id == status.node_id && isUpdatable s.status with
  | some i =>
    if isReplacing status.status then prev.set i status
    else if status.status == "executing" then prev ++ [status]
    else prev ++ [status]
  | none => prev ++ [status]

/-- The status history after dispatching a sequence of `onStatus` events,
starting from the cleared history (`setStatusHistory([])`). -/
def histOf (events : List ExecutionStatusR) : List ExecutionStatusR :=
  events.foldl updateHistory []

/-- The per-node lifecycle of the spec, as a three-state automaton:
`executing` starts a node, `progress` / `streaming` continue it, `completed` /
`error` finish it, and the terminal states are absorbing. -/
inductive Phase where
  | notStarted
  | running
  | finished
  deriving DecidableEq

/-- One lifecycle transition. -/
def lifeStep : Phase → String → Option Phase
  | .notStarted, st => if st == "executing" then some .running else none
  | .running, st =>
    if st == "progress" || st == "streaming" then some .running
    else if st == "completed" || st == "error" then some .finished
    else none
  | .finished, _ => none

/-- Run the lifecycle automaton over a status word. -/
def lifeRun (p : Phase) : List String → Option Phase
  | [] => some p
  | st :: rest =>
    match lifeStep p st with
    | some q => lifeRun q rest
    | none => none

/-- A status word obeys the per-node lifecycle when the automaton accepts it
(every proper prefix of a full `executing …​ terminal` history is allowed). -/
def lifecycleOk (l : List String) : Prop :=
  (lifeRun .notStarted l).isSome = true

instance (l : List String) : Decidable (lifecycleOk l) := by
  unfold lifecycleOk; infer_instance

/-- The statuses of the events of one node, in dispatch order. -/
def idStatuses (events : List ExecutionStatusR) (id : String) : List String :=
  (events.filter fun e => e.node_id == id).map (·.status)

/-! ### Editor `onComplete` callback: view-node values (part_011) -/

/-- A React Flow node as held in the editor state: an id, a type and a data
object (modelled as a field list). -/
structure RFNode where
  id : String
  type : String
  data : List (String × Json)

/-- The object spread `{ ...fields, key: v }`: the binding of `key` is
overwritten in place when present, appended otherwise; all other bindings are
untouched. -/
def setField {α : Type} (fields : List (String × α)) (key : String) (v : α) :
    List (String × α) :=
  if (fields.lookup key).isSome then
    fields.map fun kv => if kv.1 == key then (key, v) else kv
  else fields ++ [(key, v)]

/-- The `setNodes` updater of the editor's `onComplete` callback
(src/unnamed/part_011:361-377): every node of type `"viewNode"` whose id maps
to a defined value in the results object gets
`data: { ...node.data, value: results[node.id] }`; every other node is
returned unchanged. -/
def applyResults (results : List (String × Json)) (nds : List RFNode) :
    List RFNode :=
  nds.map fun node =>
    if node.type == "viewNode" && (results.lookup node.id).isSome then
      { node with
        data := setField node.data "value" ((results.lookup node.id).getD .null) }
    else node

/-! ### Request shaping in the editor (part_011) -/

/-- A React Flow canvas node with the client-side-only fields the wire format
drops. -/
structure CanvasNode where
  id : String
  type : String
  data : List (String × Json)
  position : Int × Int
  selected : Bool
  dragging : Bool

/-- The wire shape of a node in the execute request. -/
structure WireNode where
  id : String
  type : String
  data : List (String × Json)

/-- A React Flow canvas edge with the client-side-only fields the wire format
drops. -/
structure CanvasEdge where
  edgeId : String
  source : String
  target : String
  sourceHandle : Option String
  targetHandle : Option String
  selected : Bool

/-- The wire shape of an edge in the execute request. -/
structure WireEdge where
  source : String
  target : String
  sourceHandle : Option String
  targetHandle : Option String

/-- `nodesToExecute` (src/unnamed/part_011:295-299): each canvas node is
mapped to the record `{ id, type, data }`. -/
def nodesToExecute (nds : List CanvasNode) : List WireNode :=
  nds.map fun node => { id := node.id, type := node.type, data := node.data }

/-- `edgesToExecute` (src/unnamed/part_011:301-306): each canvas edge is
mapped to the record `{ source, target, sourceHandle, targetHandle }`. -/
def edgesToExecute (eds : List CanvasEdge) : List WireEdge :=
  eds.map fun edge =>
    { source := edge.source, target := edge.target,
      sourceHandle := edge.sourceHandle, targetHandle := edge.targetHandle }

/-! ### The declared `ExecutionStatus` record of the schema (part_014) -/

/-- The literal union of the `status` field of `ExecutionStatus`
(src/unnamed/part_014:53): `"executing" | "completed" | "error" |
"progress"`. -/
inductive StatusTagTS where
  | executing
  | completed
  | error
  | progress
  deriving DecidableEq

/-- Which strings the declared `status` union admits. -/
def statusTagOfString (s : String) : Option StatusTagTS :=
  if s = "executing" then some .executing
  else if s = "completed" then some .completed
  else if s = "error" then some .error
  else if s = "progress" then some .progress
  else none

/-- The declared field names of `ExecutionStatus`
(src/unnamed/part_014:49-58). -/
def executionStatusFieldNames : List String :=
  ["node_id", "node_number", "node_name", "status", "inputs", "output",
   "error", "progress", "progress_message"]

/-! ### Save / load workflow (part_011) -/

/-- A value held in a node's data object on the canvas: either a JSON value
or a function value (such as an attached `onChange` handler), identified by
its name. -/
inductive DataVal where
  | json (j : Json)
  | func (name : String)

/-- Whether a data value survives `JSON.stringify`. -/
def isSerializableVal : DataVal → Bool
  | .json _ => true
  | .func _ => false

/-- A workflow node as saved and loaded (`handleSaveWorkflow` stringifies the
full React Flow node, so the position is kept). -/
structure WNode where
  id : String
  type : String
  data : List (String × DataVal)
  position : Int × Int

/-- A workflow edge; all of its fields are plain JSON. -/
structure WEdge where
  source : String
  target : String
  sourceHandle : Option String
  targetHandle : Option String

/-- The JSON round trip `JSON.parse(JSON.stringify(node))` of
`handleSaveWorkflow` / `handleFileInputChange`: function-valued data entries
are dropped (JSON.stringify omits function properties); every other field
survives unchanged. -/
def jsonRoundTripNode (node : WNode) : WNode :=
  { node with data := node.data.filter fun kv => isSerializableVal kv.2 }

/-- The handler-restoration map of `handleFileInputChange`
(src/unnamed/part_011:514-532): function nodes and list nodes get
`data: { ...node.data, onChange: handleNodeDataChange }`; other nodes are
untouched. -/
def restoreHandlers (node : WNode) : WNode :=
  if node.type == "functionNode" then
    { node with data := setField node.data "onChange" (.func "handleNodeDataChange") }
  else if node.type == "listNode" then
    { node with data := setField node.data "onChange" (.func "handleNodeDataChange") }
  else node

/-- Base-10 digits of `n`, least significant first, with explicit fuel
(`fuel ≥ n` suffices). -/
def natDigitsRev (fuel n : Nat) : List Nat :=
  match fuel with
  | 0 => []
  | fuel + 1 => if n = 0 then [] else n % 10 :: natDigitsRev fuel (n / 10)

/-- The decimal rendering of a JavaScript number holding a natural. -/
def natDecimalRepr (n : Nat) : List Char :=
  if n = 0 then ['0']
  else (natDigitsRev n n).reverse.map fun d => Char.ofNat (48 + d)

/-- `getId` (src/unnamed/part_011:35-36): fresh node ids are rendered as
`` `node_${nodeId}` `` from the current counter value. -/
def getId (counter : Nat) : String :=
  "node_" ++ String.mk (natDecimalRepr counter)

/-- The regex test `id.match(/^node_(\d+)$/)` with `parseInt(match[1], 10)`
(src/unnamed/part_011:504-509): ids of the exact shape `node_<digits>` parse
to the numeric suffix. -/
def parseNodeId (s : String) : Option Nat :=
  let cs := s.toList
  if ("node_".toList).isPrefixOf cs then
    let ds := cs.drop 5
    if ds ≠ [] ∧ ds.all (·.isDigit) then
      some (ds.foldl (fun acc c => 10 * acc + (c.toNat - 48)) 0)
    else none
  else none

/-- One step of the `maxNodeId` reduction: `Math.max` against a parsed
`node_<k>` id, ids of any other shape left out. -/
def maxNodeIdStep (mx : Int) (node : WNode) : Int :=
  match parseNodeId node.id with
  | some k => max mx (k : Int)
  | none => mx

/-- The `maxNodeId` reduction of `handleFileInputChange`
(src/unnamed/part_011:503-510): `Math.max` over the parsed `node_<k>` ids,
seeded with `-1`. -/
def computeMaxNodeId (nds : List WNode) : Int :=
  nds.foldl maxNodeIdStep (-1)

/-- The counter update of `handleFileInputChange`
(src/unnamed/part_011:511-513): when some id parsed, the fresh-id counter
becomes `maxNodeId + 1`; otherwise it is left alone. -/
def updateNodeIdCounter (nds : List WNode) (current : Nat) : Nat :=
  let m := computeMaxNodeId nds
  if 0 ≤ m then m.toNat + 1 else current

/-- Saving the canvas (`handleSaveWorkflow`: `JSON.stringify({nodes, edges})`)
and loading the produced file (`handleFileInputChange`): nodes round trip
through JSON (dropping function values), the id counter is bumped, handlers
are reattached, and the edges — all-JSON records — round trip unchanged.
Returns the restored nodes, the restored edges and the new counter. -/
def saveLoadWorkflow (nds : List WNode) (eds : List WEdge) (counter : Nat) :
    List WNode × List WEdge × Nat :=
  let parsedNodes := nds.map jsonRoundTripNode
  let counter' := updateNodeIdCounter parsedNodes counter
  let restored := parsedNodes.map restoreHandlers
  (restored, eds, counter')

/-! ## Generic helper lemmas -/

theorem lookup_append {α β : Type} [BEq α] (k : α) (l₁ l₂ : List (α × β)) :
    (l₁ ++ l₂).lookup k =
      match l₁.lookup k with
      | some v => some v
      | none => l₂.lookup k := by
  induction l₁ with
  | nil => rfl
  | cons kv t ih =>
    obtain ⟨a, b⟩ := kv
    simp only [List.cons_append, List.lookup_cons]
    cases k == a <;> simp [ih]

theorem lookup_map_replace_self {α : Type} (fields : List (String × α))
    (key : String) (v : α) (h : (fields.lookup key).isSome = true) :
    (fields.map fun kv => if kv.1 == key then (key, v) else kv).lookup key
      = some v := by
  induction fields with
  | nil => simp [List.lookup] at h
  | cons kv t ih =>
    obtain ⟨a, b⟩ := kv
    rw [List.map_cons]
    by_cases ha : a = key
    · subst ha
      rw [if_pos (beq_self_eq_true a)]
      simp only [List.lookup_cons, beq_self_eq_true]
    · have ha' : (a == key) = false := beq_false_of_ne ha
      have hk' : (key == a) = false := beq_false_of_ne (Ne.symm ha)
      have ht : (t.lookup key).isSome = true := by
        rw [List.lookup_cons, hk'] at h
        exact h
      rw [if_neg (by simp [ha'])]
      simp only [List.lookup_cons, hk']
      exact ih ht

theorem lookup_map_replace_other {α : Type} (fields : List (String × α))
    (key : String) (v : α) (k : String) (hk : k ≠ key) :
    (fields.map fun kv => if kv.1 == key then (key, v) else kv).lookup k
      = fields.lookup k := by
  induction fields with
  | nil => rfl
  | cons kv t ih =>
    obtain ⟨a, b⟩ := kv
    rw [List.map_cons]
    by_cases ha : a = key
    · subst ha
      rw [if_pos (beq_self_eq_true a)]
      have h1 : (k == a) = false := beq_false_of_ne hk
      simp only [List.lookup_cons, h1]
      exact ih
    · rw [if_neg (by simp [beq_false_of_ne ha])]
      simp only [List.lookup_cons]
      cases hka : k == a
      · simp only [ih]
      · rfl

theorem lookup_setField_self {α : Type} (fields : List (String × α))
    (key : String) (v : α) : (setField fields key v).lookup key = some v := by
  unfold setField
  split
  · rename_i hsome
    exact lookup_map_replace_self fields key v hsome
  · rename_i hnone
    have h0 : fields.lookup key = none := by
      cases h : fields.lookup key with
      | none => rfl
      | some w => rw [h] at hnone; simp at hnone
    rw [lookup_append, h0]
    simp [List.lookup_cons]

theorem lookup_setField_other {α : Type} (fields : List (String × α))
    (key : String) (v : α) (k : String) (hk : k ≠ key) :
    (setField fields key v).lookup k = fields.lookup k := by
  unfold setField
  split
  · exact lookup_map_replace_other fields key v k hk
  · rw [lookup_append]
    cases h : fields.lookup k with
    | some w => rfl
    | none =>
      have hka : (k == key) = false := beq_false_of_ne hk
      simp [List.lookup_cons, hka]

/-! ## C8 — the declared `ExecutionStatus` type versus streaming frames -/

/-- C8: the claim says the execution-status record admits the status value
`"streaming"` together with the fields `streaming_text` and
`streaming_chunk`.  The declared record (src/unnamed/part_014:49-58) does
not: its `status` union has exactly the four tags
`executing | completed | error | progress`, and neither `streaming_text` nor
`streaming_chunk` is among its declared fields.  This theorem evaluates the
declared type at the claimed status value and fields. -/
theorem C8_streaming_not_in_declared_type :
    statusTagOfString "streaming" = none ∧
    statusTagOfString "progress" = some .progress ∧
    "streaming_text" ∉ executionStatusFieldNames ∧
    "streaming_chunk" ∉ executionStatusFieldNames := by
  refine ⟨rfl, rfl, ?_, ?_⟩ <;> decide

/-! ## C7 — wire shape of the streaming execute request -/

/-- C7: the editor serializes each canvas node as exactly `{id, type, data}`
and each edge as exactly `{source, target, sourceHandle, targetHandle}`:
the projections preserve list length and order, map every element to the
record of exactly those fields, and two canvas elements that differ only in
the dropped React Flow fields (position, selection, dragging state, edge id)
serialize identically. -/
theorem C7_request_wire_shape (nds : List CanvasNode) (eds : List CanvasEdge) :
    (nodesToExecute nds).length = nds.length ∧
    (edgesToExecute eds).length = eds.length ∧
    (∀ (i : Nat) (n : CanvasNode), nds[i]? = some n →
      (nodesToExecute nds)[i]? = some (WireNode.mk n.id n.type n.data)) ∧
    (∀ (i : Nat) (e : CanvasEdge), eds[i]? = some e →
      (edgesToExecute eds)[i]? =
        some (WireEdge.mk e.source e.target e.sourceHandle e.targetHandle)) ∧
    (∀ n n' : CanvasNode, n.id = n'.id → n.type = n'.type → n.data = n'.data →
      nodesToExecute [n] = nodesToExecute [n']) ∧
    (∀ e e' : CanvasEdge, e.source = e'.source → e.target = e'.target →
      e.sourceHandle = e'.sourceHandle → e.targetHandle = e'.targetHandle →
      edgesToExecute [e] = edgesToExecute [e']) := by
  refine ⟨by simp [nodesToExecute], by simp [edgesToExecute], ?_, ?_, ?_, ?_⟩
  · intro i n h
    simp [nodesToExecute, List.getElem?_map, h]
  · intro i e h
    simp [edgesToExecute, List.getElem?_map, h]
  · intro n n' h1 h2 h3
    simp [nodesToExecute, h1, h2, h3]
  · intro e e' h1 h2 h3 h4
    simp [edgesToExecute, h1, h2, h3, h4]

/-- Witness for C7 at a concrete canvas node. -/
theorem C7_request_wire_shape_witness :
    (nodesToExecute
        [{ id := "node_0", type := "functionNode", data := [],
           position := (3, 4), selected := true, dragging := false }])[0]? =
      some { id := "node_0", type := "functionNode", data := [] } :=
  (C7_request_wire_shape
      [{ id := "node_0", type := "functionNode", data := [],
         position := (3, 4), selected := true, dragging := false }]
      []).2.2.1 0 _ rfl

/-! ## C5 — abort semantics of the cleanup function -/

/-- C5: invoking the cleanup function aborts the fetch: delivery simply stops
at the abort point (the run equals the run over the delivered prefix), the
resulting `AbortError` is suppressed by the catch clause rather than
reported, and only non-abort failures invoke `onError`, with
`error.message || "Network error"`. -/
theorem C5_abort_suppressed (parseJson : List Char → Option Json)
    (chunks : List (List Char)) (abortAt : Nat) (abortMessage : Option String) :
    catchClause "AbortError" abortMessage = [] ∧
    streamRunWithAbort parseJson chunks abortAt abortMessage
      = streamCallbacks parseJson (chunks.take abortAt) ∧
    (∀ name msg, name ≠ "AbortError" →
      catchClause name msg
        = [.onError (jsOr (msg.map .str) (.str "Network error"))]) := by
  have habort : catchClause "AbortError" abortMessage = [] := by
    simp [catchClause]
  refine ⟨habort, ?_, ?_⟩
  · simp [streamRunWithAbort, habort]
  · intro name msg hname
    simp [catchClause, hname]

/-- Witness for C5: a concrete aborted run delivers nothing extra, and a
concrete non-abort failure reports through `onError`. -/
theorem C5_abort_suppressed_witness :
    streamRunWithAbort (fun _ => none) [['x']] 0 none = [] ∧
    catchClause "TypeError" (some "fetch failed")
      = [.onError (.str "fetch failed")] := by
  have h := C5_abort_suppressed (fun _ => none) [['x']] 0 none
  exact ⟨h.2.1.trans rfl, h.2.2 "TypeError" (some "fetch failed") (by decide)⟩

/-! ## C6 — env-var injection into both execute paths -/

/-- C6: both the sync and the streaming execute bodies equal the caller's
request extended with an `env_vars` field computed by `getEnvVars`, and that
field is omitted (`none`) exactly when nothing is stored (key absent or the
stored value falsy), the stored value is unparsable, or the parsed map has
no keys. -/
theorem C6_env_vars_injection
    (parseEnv : String → Option (List (String × String)))
    (stored : Option String) (request : ExecuteRequestR) :
    (executeGraphBody parseEnv stored request).nodes = request.nodes ∧
    (executeGraphBody parseEnv stored request).edges = request.edges ∧
    (executeGraphStreamingBody parseEnv stored request).nodes = request.nodes ∧
    (executeGraphStreamingBody parseEnv stored request).edges = request.edges ∧
    (executeGraphStreamingBody parseEnv stored request).env_vars
      = (executeGraphBody parseEnv stored request).env_vars ∧
    (executeGraphBody parseEnv stored request).env_vars
      = getEnvVars parseEnv stored ∧
    ((executeGraphBody parseEnv stored request).env_vars = none ↔
      stored = none ∨ stored = some "" ∨
      (∃ s, stored = some s ∧ parseEnv s = none) ∨
      (∃ s, stored = some s ∧ parseEnv s = some [])) ∧
    (∀ s m, stored = some s → s ≠ "" → parseEnv s = some m → m ≠ [] →
      (executeGraphBody parseEnv stored request).env_vars = some m) := by
  refine ⟨rfl, rfl, rfl, rfl, rfl, rfl, ?_, ?_⟩
  · show getEnvVars parseEnv stored = none ↔ _
    cases stored with
    | none => simp [getEnvVars]
    | some s =>
      by_cases hs : s = ""
      · subst hs; simp [getEnvVars]
      · have hg : getEnvVars parseEnv (some s)
            = match parseEnv s with
              | some parsed => if parsed.length > 0 then some parsed else none
              | none => none := by
          simp [getEnvVars, hs]
        rw [hg]
        cases hp : parseEnv s with
        | none =>
          constructor
          · intro _; exact Or.inr (Or.inr (Or.inl ⟨s, rfl, hp⟩))
          · intro _; rfl
        | some m =>
          cases m with
          | nil =>
            constructor
            · intro _; exact Or.inr (Or.inr (Or.inr ⟨s, rfl, hp⟩))
            · intro _; simp
          | cons kv t =>
            constructor
            · intro h
              have h' : (if (kv :: t).length > 0 then some (kv :: t) else none)
                  = (none : Option (List (String × String))) := h
              rw [if_pos (by simp)] at h'
              exact Option.noConfusion h'
            · rintro (h | h | ⟨s', hs', h⟩ | ⟨s', hs', h⟩)
              · exact Option.noConfusion h
              · injection h with h'; exact absurd h' hs
              · injection hs' with h'; subst h'; rw [hp] at h
                exact Option.noConfusion h
              · injection hs' with h'; subst h'; rw [hp] at h
                injection h with h'; exact List.noConfusion h'
  · intro s m hst hs hp hm
    show getEnvVars parseEnv stored = some m
    subst hst
    unfold getEnvVars
    simp only [hs, ne_eq, not_false_iff, if_true, hp]
    cases m with
    | nil => exact absurd rfl hm
    | cons kv t => simp

/-- Witness for C6: concrete storage with one parsed variable is injected
into the body. -/
theorem C6_env_vars_injection_witness :
    (executeGraphBody
        (fun s => if s = "stored-env-json" then some [("A", "b")] else none)
        (some "stored-env-json")
        { nodes := [], edges := [] }).env_vars = some [("A", "b")] :=
  (C6_env_vars_injection _ _ _).2.2.2.2.2.2.2 "stored-env-json" [("A", "b")]
    rfl (by decide) (by simp) (by simp)

/-! ## SSE line helpers -/

theorem isPrefixOf_append_self {α : Type} [BEq α] [LawfulBEq α]
    (l m : List α) : l.isPrefixOf (l ++ m) = true := by
  induction l with
  | nil => simp [List.isPrefixOf]
  | cons a t ih => simp [List.isPrefixOf, ih]

theorem drop_dataHead (p : List Char) : (dataHead ++ p).drop 6 = p := by
  have h : dataHead.length = 6 := rfl
  rw [← h, List.drop_left]

/-- A data line is sliced after the 6-character prefix and parsed; the parse
result decides between one dispatched callback and a skipped line. -/
theorem processLine_data (parseJson : List Char → Option Json)
    (p : List Char) :
    processLine parseJson (dataHead ++ p)
      = match parseJson p with
        | some j => [dispatchFrame j]
        | none => [] := by
  unfold processLine
  rw [if_pos (isPrefixOf_append_self dataHead p), drop_dataHead]

/-! ## C3 — the `onComplete` handler updates exactly the mapped view nodes -/

/-- C3: on the terminal `done` frame, the editor sets `data.value` of every
`viewNode` whose id appears in the results map to the mapped value (`null`
included), keeps that node's id, type and all other data fields, and returns
every other node — non-view nodes and view nodes absent from the map —
unchanged. -/
theorem C3_view_results_applied (results : List (String × Json))
    (nds : List RFNode) :
    (applyResults results nds).length = nds.length ∧
    (∀ (i : Nat) (node : RFNode), nds[i]? = some node →
      (node.type = "viewNode" → ∀ v, results.lookup node.id = some v →
        ∃ node', (applyResults results nds)[i]? = some node' ∧
          node'.id = node.id ∧ node'.type = node.type ∧
          node'.data.lookup "value" = some v ∧
          (∀ k, k ≠ "value" → node'.data.lookup k = node.data.lookup k)) ∧
      ((node.type = "viewNode" → results.lookup node.id = none) →
        (applyResults results nds)[i]? = some node)) := by
  constructor
  · simp [applyResults]
  · intro i node h
    constructor
    · intro htype v hv
      have hcond :
          (node.type == "viewNode" && (results.lookup node.id).isSome)
            = true := by
        rw [htype, hv]; rfl
      refine ⟨{ node with data := setField node.data "value" v },
        ?_, rfl, rfl, ?_, ?_⟩
      · unfold applyResults
        rw [List.getElem?_map, h, Option.map_some']
        rw [if_pos hcond, hv]
        rfl
      · exact lookup_setField_self node.data "value" v
      · intro k hk
        exact lookup_setField_other node.data "value" v k hk
    · intro habs
      unfold applyResults
      rw [List.getElem?_map, h, Option.map_some']
      by_cases htype : node.type = "viewNode"
      · have hnone : results.lookup node.id = none := habs htype
        rw [if_neg (by rw [hnone]; simp)]
      · have hcond : (node.type == "viewNode") = false := beq_false_of_ne htype
        rw [if_neg (by rw [hcond]; simp)]

/-- Witness for C3: a view node mapped to `null` gets the null applied. -/
theorem C3_view_results_applied_witness :
    ∃ node',
      (applyResults [("n1", Json.null)]
          [{ id := "n1", type := "viewNode", data := [] }])[0]? = some node' ∧
      node'.id = "n1" ∧ node'.type = "viewNode" ∧
      node'.data.lookup "value" = some Json.null ∧
      (∀ k, k ≠ "value" →
        node'.data.lookup k = ([] : List (String × Json)).lookup k) :=
  ((C3_view_results_applied [("n1", Json.null)]
      [{ id := "n1", type := "viewNode", data := [] }]).2 0
    { id := "n1", type := "viewNode", data := [] } rfl).1 rfl Json.null rfl

/-! ## C10 — totality on malformed data lines -/

/-- C10: a data line whose payload does not parse contributes no callback,
the surrounding lines are processed exactly as without it, every callback
the catch clause can emit is an `onError`, and the function's return value
is always the cleanup action. -/
theorem C10_malformed_line_skipped (parseJson : List Char → Option Json)
    (before after : List (List Char)) (payload : List Char)
    (hbad : parseJson payload = none) :
    processLine parseJson (dataHead ++ payload) = [] ∧
    processLines parseJson (before ++ (dataHead ++ payload) :: after)
      = processLines parseJson before ++ processLines parseJson after ∧
    (∀ name msg c, c ∈ catchClause name msg → ∃ m, c = Callback.onError m) ∧
    executeGraphStreamingReturn = CleanupAction.abortController := by
  have hline : processLine parseJson (dataHead ++ payload) = [] := by
    rw [processLine_data, hbad]
  refine ⟨hline, ?_, ?_, rfl⟩
  · unfold processLines
    rw [List.flatMap_append, List.flatMap_cons, hline]
    simp
  · intro name msg c hc
    unfold catchClause at hc
    split at hc
    · rw [List.mem_singleton] at hc
      exact ⟨_, hc⟩
    · exact absurd hc (List.not_mem_nil c)

/-- Witness for C10 at a concrete unparsable payload. -/
theorem C10_malformed_line_skipped_witness :
    processLine (fun _ => none) (dataHead ++ ['x']) = [] :=
  (C10_malformed_line_skipped (fun _ => none) [] [] ['x'] rfl).1

/-! ## C1 — per-frame dispatch of the streaming client -/

/-- A parsed per-node error frame that carries a `node_id` field whose value
is `null`. -/
def perNodeNullIdFrame : Json :=
  .obj [("status", .str "error"), ("node_id", .null), ("error", .str "boom")]

/-- C1 counterexample: the claim says a frame with status `"error"` is
routed to `onError` only when it has *no* `node_id` field, and that every
frame carrying a `node_id` goes to `onStatus`.  The code instead tests
JavaScript truthiness (`!statusUpdate.node_id`): this frame carries a
`node_id` field (value `null`), yet it is dispatched to `onError`, not
`onStatus`. -/
theorem C1_frame_dispatch_counterexample :
    perNodeNullIdFrame.getField "node_id" = some Json.null ∧
    strictEqStr (perNodeNullIdFrame.getField "status") "done" = false ∧
    strictEqStr (perNodeNullIdFrame.getField "status") "error" = true ∧
    dispatchFrame perNodeNullIdFrame = .onError (.str "boom") ∧
    dispatchFrame perNodeNullIdFrame ≠ .onStatus perNodeNullIdFrame := by
  refine ⟨rfl, rfl, rfl, rfl, ?_⟩
  intro h
  have h' : Callback.onError (.str "boom") = .onStatus perNodeNullIdFrame := h
  exact Callback.noConfusion h'

/-- C1 (amended): for every parsed SSE data frame the client dispatches
exactly one callback, and processing continues with the following lines: a
frame with status `"done"` invokes `onComplete` with
`results || {}` (the empty map when the field is absent); a frame with
status `"error"` and no *truthy* `node_id` (the field absent, or its value
falsy — e.g. `null` or `""`) invokes `onError` with
`error || "Unknown error"`; every other frame (including a per-node error
frame, which carries a truthy `node_id`) invokes `onStatus` with the frame
itself. -/
theorem C1_frame_dispatch (parseJson : List Char → Option Json)
    (payload : List Char) (j : Json)
    (hparse : parseJson payload = some j) :
    processLine parseJson (dataHead ++ payload) = [dispatchFrame j] ∧
    (∀ rest, processLines parseJson ((dataHead ++ payload) :: rest)
      = dispatchFrame j :: processLines parseJson rest) ∧
    (strictEqStr (j.getField "status") "done" = true →
      dispatchFrame j = .onComplete (jsOr (j.getField "results") (.obj []))) ∧
    (strictEqStr (j.getField "status") "done" = true →
      j.getField "results" = none →
      dispatchFrame j = .onComplete (.obj [])) ∧
    (strictEqStr (j.getField "status") "done" = false →
      strictEqStr (j.getField "status") "error" = true →
      truthyOpt (j.getField "node_id") = false →
      dispatchFrame j
        = .onError (jsOr (j.getField "error") (.str "Unknown error"))) ∧
    (strictEqStr (j.getField "status") "done" = false →
      (strictEqStr (j.getField "status") "error" = true →
        truthyOpt (j.getField "node_id") = true) →
      dispatchFrame j = .onStatus j) := by
  refine ⟨?_, ?_, ?_, ?_, ?_, ?_⟩
  · rw [processLine_data, hparse]
  · intro rest
    unfold processLines
    rw [List.flatMap_cons, processLine_data, hparse]
    rfl
  · intro hdone
    unfold dispatchFrame
    rw [if_pos hdone]
  · intro hdone hres
    unfold dispatchFrame
    rw [if_pos hdone, hres]
    rfl
  · intro hdone herr hnid
    unfold dispatchFrame
    rw [if_neg (by rw [hdone]; exact Bool.false_ne_true), if_pos]
    rw [herr, hnid]
    rfl
  · intro hdone hother
    unfold dispatchFrame
    rw [if_neg (by rw [hdone]; exact Bool.false_ne_true), if_neg]
    intro hcond
    rw [Bool.and_eq_true, Bool.not_eq_true'] at hcond
    rw [hother hcond.1] at hcond
    exact Bool.noConfusion hcond.2

/-- Witness for C1 at a concrete `done` frame without a `results` field. -/
theorem C1_frame_dispatch_witness :
    processLine
        (fun p => if p = ['d'] then some (.obj [("status", .str "done")])
                  else none)
        (dataHead ++ ['d'])
      = [dispatchFrame (.obj [("status", .str "done")])] ∧
    dispatchFrame (.obj [("status", .str "done")])
      = .onComplete (.obj []) := by
  have h := C1_frame_dispatch
    (fun p => if p = ['d'] then some (.obj [("status", .str "done")])
              else none)
    ['d'] (.obj [("status", .str "done")]) (by simp)
  exact ⟨h.1, h.2.2.2.1 rfl rfl⟩

/-! ## C2 — chunking invariance of the SSE read loop -/

theorem consHead_ne_nil (x : List Char) (l : List (List Char)) :
    consHead x l ≠ [] := by
  cases l <;> simp [consHead]

theorem splitNl_ne_nil (s : List Char) : splitNl s ≠ [] := by
  induction s with
  | nil => simp [splitNl]
  | cons c rest ih =>
    unfold splitNl
    split
    · simp
    · exact consHead_ne_nil [c] (splitNl rest)

theorem consHead_consHead (x y : List Char) (l : List (List Char)) :
    consHead x (consHead y l) = consHead (x ++ y) l := by
  cases l <;> simp [consHead]

theorem getLastD_irrel {α : Type} (l : List α) (h : l ≠ []) (d₁ d₂ : α) :
    l.getLastD d₁ = l.getLastD d₂ := by
  cases l with
  | nil => exact absurd rfl h
  | cons a t => rfl

theorem dropLast_cons_ne {α : Type} (a : α) (t : List α) (h : t ≠ []) :
    (a :: t).dropLast = a :: t.dropLast := by
  cases t with
  | nil => exact absurd rfl h
  | cons b l => rfl

theorem dropLast_append_ne {α : Type} (l₁ l₂ : List α) (h : l₂ ≠ []) :
    (l₁ ++ l₂).dropLast = l₁ ++ l₂.dropLast := by
  induction l₁ with
  | nil => rfl
  | cons a t ih =>
    have hne : t ++ l₂ ≠ [] := by
      intro hc
      exact h (List.append_eq_nil.mp hc).2
    rw [List.cons_append, dropLast_cons_ne a (t ++ l₂) hne, ih]
    rfl

theorem getLastD_append_ne {α : Type} (l₁ l₂ : List α) (h : l₂ ≠ []) (d : α) :
    (l₁ ++ l₂).getLastD d = l₂.getLastD d := by
  induction l₁ generalizing d with
  | nil => rfl
  | cons a t ih =>
    rw [List.cons_append, List.getLastD_cons, ih a]
    cases l₂ with
    | nil => exact absurd rfl h
    | cons b l => rfl

theorem splitNl_no_newline (s : List Char) (h : '\n' ∉ s) :
    splitNl s = [s] := by
  induction s with
  | nil => rfl
  | cons c rest ih =>
    have hc : ¬c = '\n' := fun hc => h (hc ▸ List.mem_cons_self c rest)
    have hr : '\n' ∉ rest := fun hr => h (List.mem_cons_of_mem c hr)
    unfold splitNl
    rw [if_neg hc, ih hr]
    rfl

theorem no_newline_getLastD_splitNl (s : List Char) :
    '\n' ∉ (splitNl s).getLastD [] := by
  induction s with
  | nil => simp [splitNl]
  | cons c rest ih =>
    unfold splitNl
    split
    · rw [List.getLastD_cons]
      rw [getLastD_irrel (splitNl rest) (splitNl_ne_nil rest) [] []] at ih
      exact ih
    · rename_i hc
      cases hsr : splitNl rest with
      | nil => exact absurd hsr (splitNl_ne_nil rest)
      | cons seg segs =>
        rw [hsr] at ih
        cases segs with
        | nil =>
          show '\n' ∉ ([c] ++ seg)
          intro hmem
          rcases List.mem_append.mp hmem with hm | hm
          · rcases List.mem_singleton.mp hm with h'
            exact hc h'.symm
          · exact ih hm
        | cons s2 ss =>
          show '\n' ∉ (([c] ++ seg) :: s2 :: ss).getLastD []
          rw [List.getLastD_cons]
          rw [List.getLastD_cons] at ih
          rw [getLastD_irrel (s2 :: ss) (by simp) seg ([c] ++ seg)] at ih
          exact ih

theorem splitNl_append (a b : List Char) :
    splitNl (a ++ b)
      = (splitNl a).dropLast
          ++ consHead ((splitNl a).getLastD []) (splitNl b) := by
  induction a with
  | nil =>
    rw [List.nil_append]
    cases hsb : splitNl b with
    | nil => exact absurd hsb (splitNl_ne_nil b)
    | cons seg segs => simp [splitNl, consHead]
  | cons c rest ih =>
    by_cases hc : c = '\n'
    · subst hc
      show splitNl ('\n' :: (rest ++ b)) = _
      rw [show splitNl ('\n' :: (rest ++ b)) = [] :: splitNl (rest ++ b)
          from by simp [splitNl]]
      rw [show splitNl ('\n' :: rest) = [] :: splitNl rest
          from by simp [splitNl]]
      cases hsr : splitNl rest with
      | nil => exact absurd hsr (splitNl_ne_nil rest)
      | cons s ss =>
        rw [ih, hsr]
        rfl
    · show splitNl (c :: (rest ++ b)) = _
      rw [show splitNl (c :: (rest ++ b))
            = consHead [c] (splitNl (rest ++ b))
          from by simp [splitNl, hc]]
      rw [show splitNl (c :: rest) = consHead [c] (splitNl rest)
          from by simp [splitNl, hc]]
      rw [ih]
      cases hsr : splitNl rest with
      | nil => exact absurd hsr (splitNl_ne_nil rest)
      | cons s ss =>
        cases ss with
        | nil =>
          show consHead [c] ([] ++ consHead s (splitNl b)) = _
          rw [List.nil_append, consHead_consHead]
          rfl
        | cons t ts =>
          show consHead [c] ((s :: (t :: ts).dropLast)
              ++ consHead ((t :: ts).getLastD s) (splitNl b)) = _
          rw [List.cons_append]
          show (([c] ++ s) :: ((t :: ts).dropLast
              ++ consHead ((t :: ts).getLastD s) (splitNl b))) = _
          rw [getLastD_irrel (t :: ts) (by simp) s ([c] ++ s)]
          rfl

/-- Closed form of the read loop: starting from a newline-free buffer, the
emitted callbacks are exactly the processed complete lines of the whole
character stream, and the final buffer is its unterminated tail. -/
theorem processChunks_closed (parseJson : List Char → Option Json)
    (cs : List (List Char)) (buffer : List Char) (hbuf : '\n' ∉ buffer) :
    processChunks parseJson cs buffer
      = (processLines parseJson ((splitNl (buffer ++ cs.flatten)).dropLast),
         (splitNl (buffer ++ cs.flatten)).getLastD []) := by
  induction cs generalizing buffer with
  | nil =>
    rw [show processChunks parseJson [] buffer = ([], buffer) from rfl]
    rw [List.flatten_nil, List.append_nil, splitNl_no_newline buffer hbuf]
    rfl
  | cons c cs ih =>
    have hbuf' : '\n' ∉ (splitNl (buffer ++ c)).getLastD [] :=
      no_newline_getLastD_splitNl (buffer ++ c)
    have hL : splitNl (buffer ++ (c :: cs).flatten)
        = (splitNl (buffer ++ c)).dropLast
            ++ splitNl ((splitNl (buffer ++ c)).getLastD [] ++ cs.flatten) := by
      rw [List.flatten_cons, ← List.append_assoc, splitNl_append (buffer ++ c)]
      rw [splitNl_append ((splitNl (buffer ++ c)).getLastD [])]
      rw [splitNl_no_newline _ hbuf']
      rfl
    have htail : splitNl ((splitNl (buffer ++ c)).getLastD [] ++ cs.flatten)
        ≠ [] := splitNl_ne_nil _
    show (processLines parseJson ((splitNl (buffer ++ c)).dropLast)
            ++ (processChunks parseJson cs
                ((splitNl (buffer ++ c)).getLastD [])).1,
          (processChunks parseJson cs
              ((splitNl (buffer ++ c)).getLastD [])).2) = _
    rw [ih _ hbuf', hL]
    rw [dropLast_append_ne _ _ htail, getLastD_append_ne _ _ htail]
    unfold processLines
    rw [List.flatMap_append]

/-- The callbacks of a full run depend only on the concatenated character
stream. -/
theorem streamCallbacks_eq_lines (parseJson : List Char → Option Json)
    (chunks : List (List Char)) :
    streamCallbacks parseJson chunks
      = processLines parseJson ((splitNl chunks.flatten).dropLast) := by
  unfold streamCallbacks
  rw [processChunks_closed parseJson chunks [] (by simp), List.nil_append]

theorem splitNl_records (payloads : List (List Char))
    (hnl : ∀ p ∈ payloads, '\n' ∉ p) :
    splitNl ((payloads.map sseRecord).flatten)
      = payloads.flatMap (fun p => [dataHead ++ p, []]) ++ [[]] := by
  induction payloads with
  | nil => rfl
  | cons p ps ih =>
    have hp : '\n' ∉ p := hnl p (List.mem_cons_self p ps)
    have hps : ∀ q ∈ ps, '\n' ∉ q := fun q hq => hnl q (List.mem_cons_of_mem p hq)
    have hnf : '\n' ∉ dataHead ++ p := by
      intro hmem
      rcases List.mem_append.mp hmem with hm | hm
      · revert hm; decide
      · exact hp hm
    rw [List.map_cons, List.flatten_cons]
    rw [show sseRecord p ++ (ps.map sseRecord).flatten
          = (dataHead ++ p) ++ ('\n' :: '\n' :: (ps.map sseRecord).flatten)
        from by unfold sseRecord; simp]
    rw [splitNl_append, splitNl_no_newline _ hnf]
    rw [show splitNl ('\n' :: '\n' :: (ps.map sseRecord).flatten)
          = [] :: [] :: splitNl ((ps.map sseRecord).flatten)
        from by simp [splitNl]]
    rw [ih hps]
    simp [consHead]

theorem processLines_record_lines (parseJson : List Char → Option Json)
    (payloads : List (List Char)) :
    processLines parseJson (payloads.flatMap fun p => [dataHead ++ p, []])
      = payloads.flatMap
          (fun p => ((parseJson p).map dispatchFrame).toList) := by
  induction payloads with
  | nil => rfl
  | cons p ps ih =>
    unfold processLines
    unfold processLines at ih
    rw [List.flatMap_cons, List.flatMap_append]
    conv_rhs => rw [List.flatMap_cons]
    have h2 : ([dataHead ++ p, []] : List (List Char)).flatMap
          (processLine parseJson) = processLine parseJson (dataHead ++ p) := by
      rw [List.flatMap_cons, List.flatMap_cons, List.flatMap_nil,
        List.append_nil, show processLine parseJson [] = [] from rfl,
        List.append_nil]
    rw [h2, processLine_data, ih]
    cases parseJson p <;> rfl

/-- Against a stream of well-separated records, the run emits the per-record
dispatches in record order. -/
theorem streamCallbacks_records (parseJson : List Char → Option Json)
    (payloads chunks : List (List Char))
    (hnl : ∀ p ∈ payloads, '\n' ∉ p)
    (hflat : chunks.flatten = (payloads.map sseRecord).flatten) :
    streamCallbacks parseJson chunks
      = payloads.flatMap
          (fun p => ((parseJson p).map dispatchFrame).toList) := by
  rw [streamCallbacks_eq_lines, hflat, splitNl_records payloads hnl,
    List.dropLast_concat, processLines_record_lines]

theorem flatMap_dispatch_map (parseJson : List Char → Option Json)
    (payloads : List (List Char))
    (hws : ∀ p ∈ payloads, (parseJson p).isSome = true) :
    payloads.flatMap (fun p => ((parseJson p).map dispatchFrame).toList)
      = payloads.map
          (fun p => dispatchFrame ((parseJson p).getD (.obj []))) := by
  induction payloads with
  | nil => rfl
  | cons p ps ih =>
    obtain ⟨j, hj⟩ := Option.isSome_iff_exists.mp
      (hws p (List.mem_cons_self p ps))
    rw [List.flatMap_cons, List.map_cons, hj]
    rw [ih fun q hq => hws q (List.mem_cons_of_mem p hq)]
    rfl

/-- C2: over any byte stream made of well-formed `data: <json>\n\n` records,
the run produces one callback per record in record order, and the callback
sequence is the same for every way of splitting the stream into read chunks
(the incomplete trailing line is buffered across reads). -/
theorem C2_chunking_invariance (parseJson : List Char → Option Json)
    (payloads chunks₁ chunks₂ : List (List Char))
    (hwf : ∀ p ∈ payloads, '\n' ∉ p ∧ (parseJson p).isSome = true)
    (h₁ : chunks₁.flatten = (payloads.map sseRecord).flatten)
    (h₂ : chunks₂.flatten = (payloads.map sseRecord).flatten) :
    streamCallbacks parseJson chunks₁ = streamCallbacks parseJson chunks₂ ∧
    (streamCallbacks parseJson chunks₁).length = payloads.length ∧
    (∀ i : Nat, (streamCallbacks parseJson chunks₁)[i]?
      = (payloads[i]?.bind parseJson).map dispatchFrame) := by
  have hnl : ∀ p ∈ payloads, '\n' ∉ p := fun p hp => (hwf p hp).1
  have hws : ∀ p ∈ payloads, (parseJson p).isSome = true :=
    fun p hp => (hwf p hp).2
  have e₁ := streamCallbacks_records parseJson payloads chunks₁ hnl h₁
  have e₂ := streamCallbacks_records parseJson payloads chunks₂ hnl h₂
  refine ⟨e₁.trans e₂.symm, ?_, ?_⟩
  · rw [e₁, flatMap_dispatch_map parseJson payloads hws, List.length_map]
  · intro i
    rw [e₁, flatMap_dispatch_map parseJson payloads hws, List.getElem?_map]
    cases hpi : payloads[i]? with
    | none => rfl
    | some p =>
      have hmem : p ∈ payloads := List.mem_iff_getElem?.mpr ⟨i, hpi⟩
      obtain ⟨j, hj⟩ := Option.isSome_iff_exists.mp (hws p hmem)
      rw [Option.map_some', Option.some_bind, hj]
      rfl

/-- Witness for C2: the same two-record stream delivered whole and split
mid-record produces the same two callbacks. -/
theorem C2_chunking_invariance_witness :
    streamCallbacks
        (fun p => if p = ['1'] then some (.num 1) else none)
        [sseRecord ['1']]
      = streamCallbacks
          (fun p => if p = ['1'] then some (.num 1) else none)
          [(sseRecord ['1']).take 3, (sseRecord ['1']).drop 3] ∧
    (streamCallbacks
        (fun p => if p = ['1'] then some (.num 1) else none)
        [sseRecord ['1']]).length = 1 := by
  have h := C2_chunking_invariance
    (fun p => if p = ['1'] then some (.num 1) else none)
    [['1']] [sseRecord ['1']]
    [(sseRecord ['1']).take 3, (sseRecord ['1']).drop 3]
    (by decide) (by simp) (by simp [List.take_append_drop])
  exact ⟨h.1, h.2.1⟩

/-! ## C9 — save / load round trip -/

theorem natDigitsRev_zero (fuel : Nat) : natDigitsRev fuel 0 = [] := by
  cases fuel <;> simp [natDigitsRev]

theorem natDigitsRev_spec (fuel n : Nat) (hfuel : n ≤ fuel) :
    Nat.ofDigits 10 (natDigitsRev fuel n) = n ∧
    (∀ d ∈ natDigitsRev fuel n, d < 10) ∧
    (n ≠ 0 → natDigitsRev fuel n ≠ []) := by
  induction fuel generalizing n with
  | zero =>
    have hn : n = 0 := Nat.le_zero.mp hfuel
    subst hn
    refine ⟨by simp [natDigitsRev], by simp [natDigitsRev], fun h => absurd rfl h⟩
  | succ fuel ih =>
    by_cases hn : n = 0
    · subst hn
      refine ⟨by simp [natDigitsRev_zero], by simp [natDigitsRev_zero],
        fun h => absurd rfl h⟩
    · have hstep : natDigitsRev (fuel + 1) n = n % 10 :: natDigitsRev fuel (n / 10) := by
        simp [natDigitsRev, hn]
      have hdiv : n / 10 ≤ fuel := by
        have h10 : n / 10 < n := Nat.div_lt_self (Nat.pos_of_ne_zero hn) (by omega)
        omega
      obtain ⟨hval, hdig, _⟩ := ih (n / 10) hdiv
      refine ⟨?_, ?_, ?_⟩
      · rw [hstep, Nat.ofDigits_cons, hval]
        omega
      · intro d hd
        rw [hstep] at hd
        rcases List.mem_cons.mp hd with h | h
        · subst h; exact Nat.mod_lt n (by omega)
        · exact hdig d h
      · intro _
        rw [hstep]
        exact List.cons_ne_nil _ _

theorem foldl_decimal (l : List Nat) (a : Nat) :
    l.reverse.foldl (fun acc d => 10 * acc + d) a
      = a * 10 ^ l.length + Nat.ofDigits 10 l := by
  induction l generalizing a with
  | nil => simp
  | cons d t ih =>
    rw [List.reverse_cons, List.foldl_append, ih]
    simp only [List.foldl_cons, List.foldl_nil, Nat.ofDigits_cons,
      List.length_cons, pow_succ]
    ring

theorem digitChar_isDigit (d : Nat) (hd : d < 10) :
    (Char.ofNat (48 + d)).isDigit = true := by
  interval_cases d <;> decide

theorem digitChar_toNat (d : Nat) (hd : d < 10) :
    (Char.ofNat (48 + d)).toNat - 48 = d := by
  interval_cases d <;> decide

theorem toList_getId (n : Nat) :
    (getId n).toList = "node_".toList ++ natDecimalRepr n := by
  show ("node_" ++ String.mk (natDecimalRepr n)).data = _
  rw [String.data_append]
  rfl

theorem drop_nodeHead (l : List Char) : ("node_".toList ++ l).drop 5 = l := by
  have h : ("node_".toList).length = 5 := rfl
  rw [← h, List.drop_left]

/-- Rendered fresh ids parse back to their counter value. -/
theorem parseNodeId_getId (n : Nat) : parseNodeId (getId n) = some n := by
  by_cases hn : n = 0
  · subst hn; rfl
  · unfold parseNodeId
    rw [toList_getId, if_pos (isPrefixOf_append_self _ _), drop_nodeHead]
    have hrepr : natDecimalRepr n
        = (natDigitsRev n n).reverse.map fun d => Char.ofNat (48 + d) := by
      simp [natDecimalRepr, hn]
    obtain ⟨hval, hdig, hnil⟩ := natDigitsRev_spec n n (le_refl n)
    have hne : natDecimalRepr n ≠ [] := by
      rw [hrepr]
      intro hc
      rw [List.map_eq_nil_iff, List.reverse_eq_nil_iff] at hc
      exact hnil hn hc
    have hall : (natDecimalRepr n).all (·.isDigit) = true := by
      rw [List.all_eq_true]
      intro c hc
      rw [hrepr, List.mem_map] at hc
      obtain ⟨d, hd, hcd⟩ := hc
      subst hcd
      exact digitChar_isDigit d (hdig d (List.mem_reverse.mp hd))
    rw [if_pos ⟨hne, hall⟩]
    congr 1
    rw [hrepr, List.foldl_map]
    have hext : ∀ (acc : Nat), ∀ d ∈ (natDigitsRev n n).reverse,
        10 * acc + ((Char.ofNat (48 + d)).toNat - 48) = 10 * acc + d := by
      intro acc d hd
      rw [digitChar_toNat d (hdig d (List.mem_reverse.mp hd))]
    rw [List.foldl_ext _ _ 0 hext, foldl_decimal, hval]
    omega

theorem foldlMax_acc_le (nds : List WNode) :
    ∀ acc : Int, acc ≤ nds.foldl maxNodeIdStep acc := by
  induction nds with
  | nil => intro acc; exact le_refl acc
  | cons m t ih =>
    intro acc
    rw [List.foldl_cons]
    refine le_trans ?_ (ih (maxNodeIdStep acc m))
    unfold maxNodeIdStep
    cases parseNodeId m.id with
    | none => exact le_refl acc
    | some k => exact le_max_left acc (k : Int)

theorem foldlMax_mem (nds : List WNode) :
    ∀ (acc : Int) (n : WNode) (k : Nat), n ∈ nds → parseNodeId n.id = some k →
      (k : Int) ≤ nds.foldl maxNodeIdStep acc := by
  induction nds with
  | nil => intro _ n _ h _; exact absurd h (List.not_mem_nil n)
  | cons m t ih =>
    intro acc n k hmem hp
    rw [List.foldl_cons]
    rcases List.mem_cons.mp hmem with h | h
    · subst h
      refine le_trans ?_ (foldlMax_acc_le t (maxNodeIdStep acc n))
      unfold maxNodeIdStep
      rw [hp]
      exact le_max_right acc (k : Int)
    · exact ih (maxNodeIdStep acc m) n k h hp

theorem restoreHandlers_id (node : WNode) :
    (restoreHandlers node).id = node.id := by
  unfold restoreHandlers
  split
  · rfl
  · split <;> rfl

theorem restoreHandlers_type (node : WNode) :
    (restoreHandlers node).type = node.type := by
  unfold restoreHandlers
  split
  · rfl
  · split <;> rfl

theorem restoreHandlers_position (node : WNode) :
    (restoreHandlers node).position = node.position := by
  unfold restoreHandlers
  split
  · rfl
  · split <;> rfl

theorem restoreHandlers_data_attached (node : WNode)
    (h : node.type = "functionNode" ∨ node.type = "listNode") :
    (restoreHandlers node).data
      = setField node.data "onChange" (.func "handleNodeDataChange") := by
  unfold restoreHandlers
  rcases h with h | h
  · rw [if_pos (by rw [h]; exact beq_self_eq_true _)]
  · by_cases hf : node.type = "functionNode"
    · rw [if_pos (by rw [hf]; exact beq_self_eq_true _)]
    · rw [if_neg (by simp [hf]), if_pos (by rw [h]; exact beq_self_eq_true _)]

theorem restoreHandlers_data_plain (node : WNode)
    (h1 : node.type ≠ "functionNode") (h2 : node.type ≠ "listNode") :
    (restoreHandlers node).data = node.data := by
  unfold restoreHandlers
  rw [if_neg (by simp [h1]), if_neg (by simp [h2])]

/-- C9: saving the canvas and loading the file restores the edges verbatim
and the nodes up to the non-serializable parts: every node keeps its id,
type and position; function-valued data entries are dropped by the JSON
round trip; function nodes and list nodes get a fresh `onChange` handler,
their other data fields untouched; and the fresh-id counter ends strictly
above every loaded `node_<k>` id, so ids rendered from it never collide
with any loaded id. -/
theorem C9_save_load_roundtrip (nds : List WNode) (eds : List WEdge)
    (counter : Nat) :
    (saveLoadWorkflow nds eds counter).2.1 = eds ∧
    (saveLoadWorkflow nds eds counter).1.length = nds.length ∧
    (∀ (i : Nat) (n : WNode), nds[i]? = some n →
      ∃ n', (saveLoadWorkflow nds eds counter).1[i]? = some n' ∧
        n'.id = n.id ∧ n'.type = n.type ∧ n'.position = n.position ∧
        ((n.type = "functionNode" ∨ n.type = "listNode") →
          n'.data.lookup "onChange"
              = some (.func "handleNodeDataChange") ∧
          ∀ k, k ≠ "onChange" →
            n'.data.lookup k
              = (n.data.filter fun kv => isSerializableVal kv.2).lookup k) ∧
        (n.type ≠ "functionNode" → n.type ≠ "listNode" →
          n'.data = n.data.filter fun kv => isSerializableVal kv.2)) ∧
    (∀ (n : WNode) (k : Nat), n ∈ nds → parseNodeId n.id = some k →
      k < (saveLoadWorkflow nds eds counter).2.2) ∧
    (∀ (n : WNode) (m : Nat), n ∈ nds →
      (saveLoadWorkflow nds eds counter).2.2 ≤ m → getId m ≠ n.id) := by
  have hcounter : ∀ (n : WNode) (k : Nat), n ∈ nds → parseNodeId n.id = some k →
      k < (saveLoadWorkflow nds eds counter).2.2 := by
    intro n k hmem hp
    have hmem' : jsonRoundTripNode n ∈ nds.map jsonRoundTripNode :=
      List.mem_map_of_mem jsonRoundTripNode hmem
    have hp' : parseNodeId (jsonRoundTripNode n).id = some k := hp
    have hle : (k : Int) ≤ computeMaxNodeId (nds.map jsonRoundTripNode) :=
      foldlMax_mem (nds.map jsonRoundTripNode) (-1) (jsonRoundTripNode n) k
        hmem' hp'
    have h0 : (0 : Int) ≤ computeMaxNodeId (nds.map jsonRoundTripNode) :=
      le_trans (by positivity) hle
    show k < updateNodeIdCounter (nds.map jsonRoundTripNode) counter
    unfold updateNodeIdCounter
    rw [if_pos h0]
    have htn : ((computeMaxNodeId (nds.map jsonRoundTripNode)).toNat : Int)
        = computeMaxNodeId (nds.map jsonRoundTripNode) :=
      Int.toNat_of_nonneg h0
    omega
  refine ⟨rfl, by simp [saveLoadWorkflow], ?_, hcounter, ?_⟩
  · intro i n h
    refine ⟨restoreHandlers (jsonRoundTripNode n), ?_, ?_, ?_, ?_, ?_, ?_⟩
    · show ((nds.map jsonRoundTripNode).map restoreHandlers)[i]? = _
      rw [List.getElem?_map, List.getElem?_map, h]
      rfl
    · exact restoreHandlers_id (jsonRoundTripNode n)
    · exact restoreHandlers_type (jsonRoundTripNode n)
    · exact restoreHandlers_position (jsonRoundTripNode n)
    · intro htype
      have htype' : (jsonRoundTripNode n).type = "functionNode"
          ∨ (jsonRoundTripNode n).type = "listNode" := htype
      rw [restoreHandlers_data_attached (jsonRoundTripNode n) htype']
      refine ⟨lookup_setField_self _ _ _, ?_⟩
      intro k hk
      exact lookup_setField_other _ _ _ k hk
    · intro h1 h2
      exact restoreHandlers_data_plain (jsonRoundTripNode n) h1 h2
  · intro n m hmem hge heq
    cases hp : parseNodeId n.id with
    | some k =>
      have hk := hcounter n k hmem hp
      have hm : parseNodeId (getId m) = some m := parseNodeId_getId m
      rw [heq, hp] at hm
      injection hm with hm'
      omega
    | none =>
      have hm : parseNodeId (getId m) = some m := parseNodeId_getId m
      rw [heq, hp] at hm
      exact Option.noConfusion hm

/-- Witness for C9: a two-node workflow with a function node carrying a
function-valued data entry and a plain view node. -/
theorem C9_save_load_roundtrip_witness :
    (saveLoadWorkflow
        [{ id := "node_2", type := "viewNode",
           data := [("value", .json (.num 7))], position := (0, 0) }]
        [{ source := "node_0", target := "node_2",
           sourceHandle := some "output", targetHandle := some "input" }]
        0).2.1
      = [{ source := "node_0", target := "node_2",
           sourceHandle := some "output", targetHandle := some "input" }] ∧
    (∀ (m : Nat),
      (saveLoadWorkflow
          [{ id := "node_2", type := "viewNode",
             data := [("value", .json (.num 7))], position := (0, 0) }]
          [{ source := "node_0", target := "node_2",
             sourceHandle := some "output", targetHandle := some "input" }]
          0).2.2 ≤ m →
      getId m ≠ "node_2") := by
  have h := C9_save_load_roundtrip
    [{ id := "node_2", type := "viewNode",
       data := [("value", .json (.num 7))], position := (0, 0) }]
    [{ source := "node_0", target := "node_2",
       sourceHandle := some "output", targetHandle := some "input" }]
    0
  exact ⟨h.1, fun m hm =>
    h.2.2.2.2 _ m (List.mem_cons_self _ _) hm⟩

/-! ## C4 — status-history invariants of the `onStatus` callback -/

theorem lifeRun_append (l₁ l₂ : List String) :
    ∀ p : Phase, lifeRun p (l₁ ++ l₂)
      = match lifeRun p l₁ with
        | some q => lifeRun q l₂
        | none => none := by
  induction l₁ with
  | nil => intro p; rfl
  | cons st t ih =>
    intro p
    have h1 : lifeRun p ((st :: t) ++ l₂)
        = match lifeStep p st with
          | some q => lifeRun q (t ++ l₂)
          | none => none := rfl
    have h2 : lifeRun p (st :: t)
        = match lifeStep p st with
          | some q => lifeRun q t
          | none => none := rfl
    rw [h1, h2]
    cases lifeStep p st with
    | none => rfl
    | some q => exact ih q

theorem lifecycleOk_append_left (l₁ l₂ : List String)
    (h : lifecycleOk (l₁ ++ l₂)) : lifecycleOk l₁ := by
  unfold lifecycleOk at h ⊢
  rw [lifeRun_append] at h
  cases hrun : lifeRun Phase.notStarted l₁ with
  | none => rw [hrun] at h; exact absurd h (by simp)
  | some q => rfl

theorem lifeStep_ne_notStarted (q : Phase) (st : String) (q' : Phase)
    (h : lifeStep q st = some q') : q' ≠ Phase.notStarted := by
  intro hc
  subst hc
  cases q <;> simp only [lifeStep] at h
  · split at h
    · exact Phase.noConfusion (Option.some.inj h)
    · exact Option.noConfusion h
  · split at h
    · exact Phase.noConfusion (Option.some.inj h)
    · split at h
      · exact Phase.noConfusion (Option.some.inj h)
      · exact Option.noConfusion h
  · exact Option.noConfusion h

theorem lifeRun_ne_notStarted (w : List String) :
    ∀ (q p' : Phase), q ≠ Phase.notStarted → lifeRun q w = some p' →
      p' ≠ Phase.notStarted := by
  induction w with
  | nil =>
    intro q p' hq h
    injection h with h'
    subst h'
    exact hq
  | cons st t ih =>
    intro q p' hq h
    rw [show lifeRun q (st :: t)
          = match lifeStep q st with
            | some r => lifeRun r t
            | none => none from rfl] at h
    cases hstep : lifeStep q st with
    | none =>
      rw [hstep] at h
      exact Option.noConfusion h
    | some r =>
      rw [hstep] at h
      exact ih r p' (lifeStep_ne_notStarted q st r hstep) h

theorem lifeRun_notStarted_nil (w : List String)
    (h : lifeRun Phase.notStarted w = some Phase.notStarted) : w = [] := by
  cases w with
  | nil => rfl
  | cons st t =>
    rw [show lifeRun Phase.notStarted (st :: t)
          = match lifeStep Phase.notStarted st with
            | some r => lifeRun r t
            | none => none from rfl] at h
    cases hstep : lifeStep Phase.notStarted st with
    | none => rw [hstep] at h; exact Option.noConfusion h
    | some r =>
      rw [hstep] at h
      exact absurd rfl
        (lifeRun_ne_notStarted t r Phase.notStarted
          (lifeStep_ne_notStarted Phase.notStarted st r hstep) h)

theorem lifeStep_to_running (q : Phase) (st : String)
    (h : lifeStep q st = some Phase.running) : isUpdatable st = true := by
  cases q <;> simp only [lifeStep] at h
  · split at h
    · rename_i hst
      unfold isUpdatable
      rw [hst]
      rfl
    · exact Option.noConfusion h
  · split at h
    · rename_i hst
      unfold isUpdatable
      rcases Bool.or_eq_true _ _ |>.mp hst with h' | h' <;> rw [h'] <;> simp
    · split at h
      · injection h with h'; exact Phase.noConfusion h'
      · exact Option.noConfusion h
  · exact Option.noConfusion h

theorem lifeStep_running_replacing (st : String) (q' : Phase)
    (h : lifeStep Phase.running st = some q') : isReplacing st = true := by
  simp only [lifeStep] at h
  split at h
  · rename_i hst
    unfold isReplacing
    rcases Bool.or_eq_true _ _ |>.mp hst with h' | h' <;> rw [h'] <;> simp
  · split at h
    · rename_i hst
      unfold isReplacing
      rcases Bool.or_eq_true _ _ |>.mp hst with h' | h' <;> rw [h'] <;> simp
    · exact Option.noConfusion h

theorem lifeRun_running_last (w : List String) :
    ∀ q : Phase, lifeRun q w = some Phase.running →
      (w = [] ∧ q = Phase.running) ∨
      (∃ st, w.getLast? = some st ∧ isUpdatable st = true) := by
  induction w with
  | nil =>
    intro q h
    injection h with h'
    exact Or.inl ⟨rfl, h'⟩
  | cons st t ih =>
    intro q h
    rw [show lifeRun q (st :: t)
          = match lifeStep q st with
            | some r => lifeRun r t
            | none => none from rfl] at h
    cases hstep : lifeStep q st with
    | none => rw [hstep] at h; exact Option.noConfusion h
    | some r =>
      rw [hstep] at h
      rcases ih r h with ⟨ht, hr⟩ | ⟨st', hlast, hupd⟩
      · subst ht
        subst hr
        exact Or.inr ⟨st, rfl, lifeStep_to_running q st hstep⟩
      · refine Or.inr ⟨st', ?_, hupd⟩
        cases t with
        | nil => exact absurd hlast (by simp)
        | cons b l => rw [List.getLast?_cons_cons]; exact hlast

theorem findIdxQ_none {α : Type} (p : α → Bool) (l : List α) :
    ∀ acc : Nat, (∀ e ∈ l, p e = false) → List.findIdx? p l acc = none := by
  induction l with
  | nil => intro acc _; exact List.findIdx?_nil
  | cons a t ih =>
    intro acc hall
    rw [List.findIdx?_cons,
      if_neg (by rw [hall a (List.mem_cons_self a t)]; simp)]
    exact ih (acc + 1) fun e he => hall e (List.mem_cons_of_mem a he)

theorem findIdxQ_at {α : Type} (p : α → Bool) (l : List α) :
    ∀ (i : Nat) (e : α) (acc : Nat), l[i]? = some e → p e = true →
      (∀ (j : Nat) (e' : α), j < i → l[j]? = some e' → p e' = false) →
      List.findIdx? p l acc = some (acc + i) := by
  induction l with
  | nil => intro i e _ hi; rw [List.getElem?_nil] at hi; exact absurd hi (by simp)
  | cons a t ih =>
    intro i e acc hi hpe hearly
    cases i with
    | zero =>
      rw [List.getElem?_cons_zero] at hi
      injection hi with ha
      rw [List.findIdx?_cons, if_pos (by rw [ha]; exact hpe)]
      exact congrArg some (by omega)
    | succ i' =>
      have h0 : p a = false :=
        hearly 0 a (Nat.succ_pos i') List.getElem?_cons_zero
      rw [List.findIdx?_cons, if_neg (by rw [h0]; simp)]
      rw [List.getElem?_cons_succ] at hi
      rw [ih i' e (acc + 1) hi hpe
        (fun j e' hj hj' =>
          hearly (j + 1) e' (Nat.succ_lt_succ hj)
            (by rw [List.getElem?_cons_succ]; exact hj'))]
      exact congrArg some (by omega)

theorem updateHistory_no_match (prev : List ExecutionStatusR)
    (s : ExecutionStatusR)
    (hall : ∀ e ∈ prev,
      (e.node_id == s.node_id && isUpdatable e.status) = false) :
    updateHistory prev s = prev ++ [s] := by
  unfold updateHistory
  rw [findIdxQ_none _ prev 0 hall]

theorem updateHistory_set (prev : List ExecutionStatusR)
    (s : ExecutionStatusR) (i : Nat) (e : ExecutionStatusR)
    (hi : prev[i]? = some e)
    (hpe : (e.node_id == s.node_id && isUpdatable e.status) = true)
    (hearly : ∀ (j : Nat) (e' : ExecutionStatusR), j < i → prev[j]? = some e' →
      (e'.node_id == s.node_id && isUpdatable e'.status) = false)
    (hrepl : isReplacing s.status = true) :
    updateHistory prev s = prev.set i s := by
  unfold updateHistory
  rw [findIdxQ_at _ prev i e 0 hi hpe hearly, Nat.zero_add]
  show (if isReplacing s.status = true then prev.set i s
        else if (s.status == "executing") = true then prev ++ [s]
        else prev ++ [s]) = prev.set i s
  rw [if_pos hrepl]

theorem filter_set_false {α : Type} (q : α → Bool) (l : List α) :
    ∀ (i : Nat) (e s : α), l[i]? = some e → q e = false → q s = false →
      (l.set i s).filter q = l.filter q := by
  induction l with
  | nil => intro i e _ hi; rw [List.getElem?_nil] at hi; exact absurd hi (by simp)
  | cons a t ih =>
    intro i e s hi hqe hqs
    cases i with
    | zero =>
      rw [List.getElem?_cons_zero] at hi
      injection hi with ha
      rw [List.set_cons_zero]
      rw [List.filter_cons, List.filter_cons, hqs,
        show q a = false from by rw [ha]; exact hqe]
      simp
    | succ i' =>
      rw [List.getElem?_cons_succ] at hi
      rw [List.set_cons_succ, List.filter_cons, List.filter_cons,
        ih i' e s hi hqe hqs]

theorem filter_singleton_q {α : Type} (q : α → Bool) (l : List α)
    (e : α) (h : l.filter q = [e]) : q e = true := by
  have hmem : e ∈ l.filter q := by rw [h]; exact List.mem_singleton.mpr rfl
  exact (List.mem_filter.mp hmem).2

theorem filter_singleton_pos {α : Type} (q : α → Bool) (l : List α) (e : α) :
    l.filter q = [e] →
      ∃ i : Nat, l[i]? = some e ∧
        ∀ (j : Nat) (e' : α), j < i → l[j]? = some e' → q e' = false := by
  induction l with
  | nil => intro h; exact absurd h (by simp)
  | cons a t ih =>
    intro h
    rw [List.filter_cons] at h
    by_cases hqa : q a = true
    · rw [if_pos hqa] at h
      have ha : a = e := (List.cons.inj h).1
      exact ⟨0, by rw [List.getElem?_cons_zero, ha],
        fun j e' hj _ => absurd hj (Nat.not_lt_zero j)⟩
    · rw [if_neg hqa] at h
      obtain ⟨i, hi, hearly⟩ := ih h
      refine ⟨i + 1, by rw [List.getElem?_cons_succ]; exact hi, ?_⟩
      intro j e' hj hj'
      cases j with
      | zero =>
        rw [List.getElem?_cons_zero] at hj'
        injection hj' with ha
        rw [← ha]
        exact Bool.eq_false_iff.mpr hqa
      | succ j' =>
        rw [List.getElem?_cons_succ] at hj'
        exact hearly j' e' (Nat.lt_of_succ_lt_succ hj) hj'

theorem filter_set_singleton {α : Type} (q : α → Bool) (l : List α) :
    ∀ (i : Nat) (e s : α), l.filter q = [e] → l[i]? = some e → q s = true →
      (l.set i s).filter q = [s] := by
  induction l with
  | nil => intro i e _ _ hi; rw [List.getElem?_nil] at hi; exact absurd hi (by simp)
  | cons a t ih =>
    intro i e s hfil hi hqs
    cases i with
    | zero =>
      rw [List.getElem?_cons_zero] at hi
      injection hi with ha
      subst ha
      rw [List.filter_cons] at hfil
      by_cases hqa : q a = true
      · rw [if_pos hqa] at hfil
        have hft : t.filter q = [] := (List.cons.inj hfil).2
        rw [List.set_cons_zero, List.filter_cons, if_pos hqs, hft]
      · rw [if_neg hqa] at hfil
        have : q a = true := filter_singleton_q q t a hfil
        exact absurd this hqa
    | succ i' =>
      rw [List.getElem?_cons_succ] at hi
      rw [List.filter_cons] at hfil
      by_cases hqa : q a = true
      · rw [if_pos hqa] at hfil
        have hft : t.filter q = [] := (List.cons.inj hfil).2
        have ha : a = e := (List.cons.inj hfil).1
        have hmem : e ∈ t := List.mem_iff_getElem?.mpr ⟨i', hi⟩
        have : e ∈ t.filter q :=
          List.mem_filter.mpr ⟨hmem, by rw [← ha]; exact hqa⟩
        rw [hft] at this
        exact absurd this (List.not_mem_nil e)
      · rw [if_neg hqa] at hfil
        rw [List.set_cons_succ, List.filter_cons, if_neg hqa]
        exact ih i' e s hfil hi hqs

theorem two_mem_filter_length {α : Type} (q : α → Bool) (l : List α) :
    ∀ (i j : Nat) (e e' : α), l[i]? = some e → l[j]? = some e' → i ≠ j →
      q e = true → q e' = true → 2 ≤ (l.filter q).length := by
  induction l with
  | nil => intro i _ e _ hi; rw [List.getElem?_nil] at hi; exact absurd hi (by simp)
  | cons a t ih =>
    intro i j e e' hi hj hij hqe hqe'
    rw [List.filter_cons]
    cases i with
    | zero =>
      rw [List.getElem?_cons_zero] at hi
      injection hi with ha
      cases j with
      | zero => exact absurd rfl hij
      | succ j' =>
        rw [List.getElem?_cons_succ] at hj
        have hmem : e' ∈ t.filter q :=
          List.mem_filter.mpr ⟨List.mem_iff_getElem?.mpr ⟨j', hj⟩, hqe'⟩
        have hpos : 0 < (t.filter q).length :=
          List.length_pos.mpr (List.ne_nil_of_mem hmem)
        rw [if_pos (by rw [ha]; exact hqe)]
        simp only [List.length_cons]
        omega
    | succ i' =>
      rw [List.getElem?_cons_succ] at hi
      cases j with
      | zero =>
        rw [List.getElem?_cons_zero] at hj
        injection hj with ha
        have hmem : e ∈ t.filter q :=
          List.mem_filter.mpr ⟨List.mem_iff_getElem?.mpr ⟨i', hi⟩, hqe⟩
        have hpos : 0 < (t.filter q).length :=
          List.length_pos.mpr (List.ne_nil_of_mem hmem)
        rw [if_pos (by rw [ha]; exact hqe')]
        simp only [List.length_cons]
        omega
      | succ j' =>
        rw [List.getElem?_cons_succ] at hj
        have h2 : 2 ≤ (t.filter q).length :=
          ih i' j' e e' hi hj (fun hc => hij (by rw [hc])) hqe hqe'
        by_cases hqa : q a = true
        · rw [if_pos hqa]
          simp only [List.length_cons]
          omega
        · rw [if_neg hqa]
          exact h2

theorem length_filter_and_le {α : Type} (q r : α → Bool) (l : List α) :
    (l.filter fun e => q e && r e).length ≤ (l.filter q).length := by
  induction l with
  | nil => exact le_refl 0
  | cons a t ih =>
    rw [List.filter_cons, List.filter_cons]
    cases hq : q a <;> cases hr : r a <;>
      simp only [Bool.and_false, Bool.and_true, Bool.false_and,
        Bool.true_and, hq, hr, if_true, if_false] <;>
      first
        | exact ih
        | (simp only [List.length_cons]; omega)
        | exact le_trans ih (Nat.le_succ _)

/-- The core invariant of the status history: under the per-node lifecycle,
the entries of the history with a given node id are exactly the last
dispatched event of that node (or nothing if it has not started). -/
theorem histOf_idEntries (events : List ExecutionStatusR)
    (hlc : ∀ id, lifecycleOk (idStatuses events id)) :
    ∀ id, (histOf events).filter (fun e => e.node_id == id)
      = ((events.filter fun e => e.node_id == id).getLast?).toList := by
  induction events using List.reverseRecOn with
  | nil => intro id; rfl
  | append_singleton evs s ih =>
    have hlc' : ∀ id, lifecycleOk (idStatuses evs id) := by
      intro id
      have h := hlc id
      rw [show idStatuses (evs ++ [s]) id
            = idStatuses evs id ++ idStatuses [s] id from by
          unfold idStatuses
          rw [List.filter_append, List.map_append]] at h
      exact lifecycleOk_append_left _ _ h
    have IH := ih hlc'
    have hhist : histOf (evs ++ [s]) = updateHistory (histOf evs) s := by
      unfold histOf
      rw [List.foldl_concat]
    have hself : (s.node_id == s.node_id) = true := beq_self_eq_true _
    have hx : idStatuses (evs ++ [s]) s.node_id
        = idStatuses evs s.node_id ++ [s.status] := by
      unfold idStatuses
      rw [List.filter_append, List.map_append]
      simp [List.filter_cons, hself]
    have hok := hlc s.node_id
    rw [hx] at hok
    unfold lifecycleOk at hok
    rw [lifeRun_append] at hok
    have hcase :
        ((evs.filter fun e => e.node_id == s.node_id) = [] ∧
          updateHistory (histOf evs) s = histOf evs ++ [s]) ∨
        (∃ (i : Nat) (e₀ : ExecutionStatusR),
          ((histOf evs).filter fun e => e.node_id == s.node_id) = [e₀] ∧
          (histOf evs)[i]? = some e₀ ∧
          updateHistory (histOf evs) s = (histOf evs).set i s) := by
      cases hrun : lifeRun Phase.notStarted (idStatuses evs s.node_id) with
      | none => rw [hrun] at hok; exact absurd hok (by simp)
      | some p =>
        rw [hrun] at hok
        have hok' : (lifeRun p [s.status]).isSome = true := hok
        have hstep : ∃ q, lifeStep p s.status = some q := by
          cases hls : lifeStep p s.status with
          | some q => exact ⟨q, rfl⟩
          | none =>
            rw [show lifeRun p [s.status]
                  = match lifeStep p s.status with
                    | some q => lifeRun q []
                    | none => none from rfl, hls] at hok'
            exact absurd hok' (by simp)
        obtain ⟨q, hq⟩ := hstep
        cases p with
        | finished => exact absurd hq (by simp [lifeStep])
        | notStarted =>
          have hnil : idStatuses evs s.node_id = [] :=
            lifeRun_notStarted_nil _ hrun
          have hfil : (evs.filter fun e => e.node_id == s.node_id) = [] := by
            unfold idStatuses at hnil
            exact List.map_eq_nil_iff.mp hnil
          have hhist0 :
              ((histOf evs).filter fun e => e.node_id == s.node_id) = [] := by
            rw [IH s.node_id, hfil]
            rfl
          have hnoentry : ∀ e ∈ histOf evs,
              (e.node_id == s.node_id && isUpdatable e.status) = false := by
            intro e he
            by_cases hb : (e.node_id == s.node_id) = true
            · have hmem : e ∈ (histOf evs).filter
                  (fun e => e.node_id == s.node_id) :=
                List.mem_filter.mpr ⟨he, hb⟩
              rw [hhist0] at hmem
              exact absurd hmem (List.not_mem_nil e)
            · rw [Bool.eq_false_iff.mpr hb, Bool.false_and]
          exact Or.inl ⟨hfil, updateHistory_no_match _ _ hnoentry⟩
        | running =>
          rcases lifeRun_running_last _ _ hrun with ⟨_, hns⟩ | ⟨st, hlast, _⟩
          · exact absurd hns (by simp)
          · unfold idStatuses at hlast
            rw [List.getLast?_map] at hlast
            obtain ⟨e₀, hge, _⟩ := Option.map_eq_some'.mp hlast
            have hfil1 :
                ((histOf evs).filter fun e => e.node_id == s.node_id)
                  = [e₀] := by
              rw [IH s.node_id, hge]
              rfl
            obtain ⟨i, hie, hearlyq⟩ :=
              filter_singleton_pos _ (histOf evs) e₀ hfil1
            have hq₀ : (e₀.node_id == s.node_id) = true :=
              filter_singleton_q (fun e => e.node_id == s.node_id)
                (histOf evs) e₀ hfil1
            have hupd₀ : isUpdatable e₀.status = true := by
              have hmem : e₀ ∈ (histOf evs).filter
                  (fun e => e.node_id == s.node_id) := by
                rw [hfil1]; exact List.mem_singleton.mpr rfl
              -- the entry is the last event; its status is the last status
              -- of the lifecycle word, which in the running phase is
              -- updatable
              have := lifeRun_running_last _ _ hrun
              rcases this with ⟨_, hns⟩ | ⟨st', hlast', hupd'⟩
              · exact absurd hns (by simp)
              · unfold idStatuses at hlast'
                rw [List.getLast?_map, hge] at hlast'
                injection hlast' with hst'
                rw [← hst'] at hupd'
                exact hupd'
            have hpe : (e₀.node_id == s.node_id && isUpdatable e₀.status)
                = true := by
              rw [Bool.and_eq_true]
              exact ⟨hq₀, hupd₀⟩
            have hearly : ∀ (j : Nat) (e' : ExecutionStatusR), j < i →
                (histOf evs)[j]? = some e' →
                (e'.node_id == s.node_id && isUpdatable e'.status)
                  = false := by
              intro j e' hj hj'
              rw [hearlyq j e' hj hj', Bool.false_and]
            have hrepl : isReplacing s.status = true :=
              lifeStep_running_replacing s.status q hq
            exact Or.inr ⟨i, e₀, hfil1, hie,
              updateHistory_set _ s i e₀ hie hpe hearly hrepl⟩
    intro id
    rw [hhist]
    rcases hcase with ⟨hfilnil, hupd⟩ | ⟨i, e₀, hfil1, hie, hupd⟩
    · rw [hupd, List.filter_append, List.filter_append]
      by_cases hid : (s.node_id == id) = true
      · have hidx : s.node_id = id := eq_of_beq hid
        have hs1 : List.filter (fun e => e.node_id == id) [s] = [s] := by
          simp [List.filter_cons, hid]
        have hevs : (evs.filter fun e => e.node_id == id) = [] := by
          rw [← hidx]; exact hfilnil
        have hhistnil :
            ((histOf evs).filter fun e => e.node_id == id) = [] := by
          rw [IH id, hevs]
          rfl
        rw [hs1, hhistnil, hevs]
        simp
      · have hb : (s.node_id == id) = false := Bool.eq_false_iff.mpr hid
        have hs0 : List.filter (fun e => e.node_id == id) [s] = [] := by
          simp [List.filter_cons, hb]
        rw [hs0, List.append_nil, List.append_nil, IH id]
    · by_cases hid : (s.node_id == id) = true
      · have hidx : s.node_id = id := eq_of_beq hid
        rw [hupd]
        have hfil1' : ((histOf evs).filter fun e => e.node_id == id)
            = [e₀] := by
          rw [← hidx]; exact hfil1
        rw [filter_set_singleton _ _ i e₀ s hfil1' hie hid]
        rw [List.filter_append]
        have hs1 : List.filter (fun e => e.node_id == id) [s] = [s] := by
          simp [List.filter_cons, hid]
        rw [hs1, List.getLast?_concat]
        rfl
      · have hb : (s.node_id == id) = false := Bool.eq_false_iff.mpr hid
        rw [hupd]
        have he₀x : (e₀.node_id == s.node_id) = true :=
          filter_singleton_q (fun e => e.node_id == s.node_id)
            (histOf evs) e₀ hfil1
        have he₀ : (e₀.node_id == id) = false := by
          rw [eq_of_beq he₀x]; exact hb
        rw [filter_set_false _ _ i e₀ s hie he₀ hb]
        rw [List.filter_append]
        have hs0 : List.filter (fun e => e.node_id == id) [s] = [] := by
          simp [List.filter_cons, hb]
        rw [hs0, List.append_nil, IH id]

/-- C4: if the incoming event stream obeys the per-node lifecycle (one
`executing`, then zero or more `progress` / `streaming`, then at most one
terminal `completed` / `error`), then at every point the status history holds
at most one entry per node id in a non-terminal state, and a terminal update
replaces that node's running entry in place, preserving its position in
dispatch order. -/
theorem C4_status_history (events : List ExecutionStatusR)
    (hlc : ∀ id ∈ events.map (fun e => e.node_id),
      lifecycleOk (idStatuses events id)) :
    (∀ (k : Nat) (id : String),
      ((histOf (events.take k)).filter fun e =>
          e.node_id == id
            && !(e.status == "completed" || e.status == "error")).length
        ≤ 1) ∧
    (∀ (k : Nat) (s : ExecutionStatusR), events[k]? = some s →
      (s.status = "completed" ∨ s.status = "error") →
      ∀ (i : Nat) (e : ExecutionStatusR),
        (histOf (events.take k))[i]? = some e → e.node_id = s.node_id →
        isUpdatable e.status = true →
        histOf (events.take (k + 1)) = (histOf (events.take k)).set i s) := by
  have hlc_all : ∀ id, lifecycleOk (idStatuses events id) := by
    intro id
    by_cases hid : id ∈ events.map (fun e => e.node_id)
    · exact hlc id hid
    · have hfil : (events.filter fun e => e.node_id == id) = [] := by
        rw [List.filter_eq_nil_iff]
        intro e he hc
        exact hid (by rw [← eq_of_beq hc]
                      exact List.mem_map_of_mem _ he)
      unfold lifecycleOk idStatuses
      rw [hfil]
      rfl
  have hlc_take : ∀ (k : Nat) (id : String),
      lifecycleOk (idStatuses (events.take k) id) := by
    intro k id
    have h := hlc_all id
    rw [show idStatuses events id
          = idStatuses (events.take k) id
              ++ idStatuses (events.drop k) id from by
        unfold idStatuses
        conv_lhs => rw [← List.take_append_drop k events]
        rw [List.filter_append, List.map_append]] at h
    exact lifecycleOk_append_left _ _ h
  constructor
  · intro k id
    have hInv := histOf_idEntries (events.take k) (hlc_take k) id
    refine le_trans (length_filter_and_le (fun e => e.node_id == id)
      (fun e => !(e.status == "completed" || e.status == "error"))
      (histOf (events.take k))) ?_
    rw [hInv]
    cases ((events.take k).filter fun e => e.node_id == id).getLast? <;> simp
  · intro k s hk hterm i e hie hnid hupd
    have hInv := histOf_idEntries (events.take k) (hlc_take k) s.node_id
    have hqe : (e.node_id == s.node_id) = true := by
      rw [hnid]; exact beq_self_eq_true _
    have hpe : (e.node_id == s.node_id && isUpdatable e.status) = true := by
      rw [Bool.and_eq_true]
      exact ⟨hqe, hupd⟩
    have hlen :
        (((histOf (events.take k)).filter
            fun e => e.node_id == s.node_id)).length ≤ 1 := by
      rw [hInv]
      cases ((events.take k).filter
        fun e => e.node_id == s.node_id).getLast? <;> simp
    have hearly : ∀ (j : Nat) (e' : ExecutionStatusR), j < i →
        (histOf (events.take k))[j]? = some e' →
        (e'.node_id == s.node_id && isUpdatable e'.status) = false := by
      intro j e' hj hj'
      by_cases hq' : (e'.node_id == s.node_id) = true
      · exfalso
        have h2 := two_mem_filter_length (fun e => e.node_id == s.node_id)
          (histOf (events.take k)) i j e e' hie hj' (by omega) hqe hq'
        omega
      · rw [Bool.eq_false_iff.mpr hq', Bool.false_and]
    have hrepl : isReplacing s.status = true := by
      rcases hterm with h | h <;> rw [h] <;> decide
    have hstep : histOf (events.take (k + 1))
        = updateHistory (histOf (events.take k)) s := by
      unfold histOf
      rw [List.take_succ, hk, show (some s).toList = [s] from rfl,
        List.foldl_append]
      rfl
    rw [hstep]
    exact updateHistory_set _ s i e hie hpe hearly hrepl

/-- Witness for C4: a node executes and then completes; the terminal update
replaces the running entry at its position. -/
theorem C4_status_history_witness :
    histOf (([⟨"n1", "executing", Json.null⟩,
              ⟨"n1", "completed", Json.null⟩] :
        List ExecutionStatusR).take 2)
      = (histOf (([⟨"n1", "executing", Json.null⟩,
                   ⟨"n1", "completed", Json.null⟩] :
            List ExecutionStatusR).take 1)).set 0
          ⟨"n1", "completed", Json.null⟩ :=
  (C4_status_history
      [⟨"n1", "executing", Json.null⟩, ⟨"n1", "completed", Json.null⟩]
      (by decide)).2 1 ⟨"n1", "completed", Json.null⟩ rfl (Or.inl rfl)
    0 ⟨"n1", "executing", Json.null⟩ rfl rfl (by decide)

end Psynapse
